import Mathlib

/-!
Verification of the identifier-resolution pipeline of the `ibkr-api`
repository.  The definitions below are shallow embeddings of the Python
functions in `src/app/ibkr.py` (class `IBKRManager`) and
`src/scripts/apple_supplier/parse_apple_suppliers.py`
(class `AppleSupplierParser`).  External collaborators (the IBKR session,
the yahooquery search endpoint, thread scheduling) are modelled as
explicit parameters: per-call response functions, task-outcome functions
and a completion order.
-/

namespace IbkrSpec


/-! ## Python string primitives

Helpers mirroring the exact Python string operations the pipeline uses:
`str.strip()`, `str.split()` (whitespace tokenisation), `str.upper()`,
`s.split(".")[0]` and truthiness of strings. -/

/-- Model of Python `str.strip()`: drop leading and trailing whitespace. -/
def pyStrip (s : String) : String :=
  ⟨(((s.data.dropWhile Char.isWhitespace).reverse).dropWhile Char.isWhitespace).reverse⟩

/-- Auxiliary tokeniser for `str.split()` with no separator argument:
`cur` is the reversed current token. -/
def pyTokensAux : List Char → List Char → List String
  | cur, [] => if cur.isEmpty then [] else [⟨cur.reverse⟩]
  | cur, c :: cs =>
    if c.isWhitespace then
      if cur.isEmpty then pyTokensAux [] cs
      else ⟨cur.reverse⟩ :: pyTokensAux [] cs
    else pyTokensAux (c :: cur) cs

/-- Model of Python `str.split()`: whitespace-delimited tokens, empties dropped. -/
def pySplit (s : String) : List String :=
  pyTokensAux [] s.data

/-- Model of Python `str.upper()` (ASCII, which is all the code compares). -/
def pyUpper (s : String) : String :=
  ⟨s.data.map Char.toUpper⟩

/-- Model of Python `s.split(".")[0]`: everything before the first dot. -/
def pyDotHead (s : String) : String :=
  ⟨s.data.takeWhile (fun c => c ≠ '.')⟩

/-! ## Python `dict` model

Insertion-ordered association list with the update semantics of a Python
dictionary: writing to an existing key replaces its value in place,
writing a fresh key appends it. -/

/-- One Python dictionary assignment `d[k] = v`. -/
def dictInsert : List (String × α) → String → α → List (String × α)
  | [], k, v => [(k, v)]
  | p :: ps, k, v => if p.1 = k then (k, v) :: ps else p :: dictInsert ps k v

/-- Replay a sequence of dictionary assignments on an empty dictionary. -/
def dictOf (writes : List (String × α)) : List (String × α) :=
  writes.foldl (fun d p => dictInsert d p.1 p.2) []

/-- Model of Python `d[k]` / `d.get(k)`. -/
def dictLookup (d : List (String × α)) (k : String) : Option α :=
  (d.find? (fun p => p.1 = k)).map (fun p => p.2)

/-- Keys of a Python dictionary, in insertion order. -/
def dictKeys (d : List (String × α)) : List String :=
  d.map (fun p => p.1)

/-- First-occurrence deduplication, the order in which a Python dictionary
keeps keys that are written several times. -/
def firstDedup : List String → List String
  | [] => []
  | x :: xs => x :: (firstDedup xs).filter (fun y => y ≠ x)

/-! ## IBKRManager model (`src/app/ibkr.py`)

`qualify_contracts` builds one `Contract` per symbol, slices the contract
list into batches of `batch_size` with Python slicing
`contracts[i : i + batch_size]` for `i in range(0, len(contracts),
batch_size)`, issues one external call per batch
(`self.ib.qualifyContracts(*batch)`), and matches each request of the
batch to the first returned record with the same
`(symbol, currency, secType)`.  The stateful session is modelled by the
function `resp` giving the outcome of the n-th external call: `some
records` for a normal return, `none` for a raised exception. -/

/-- The fields of an `ib_insync` contract that the pipeline reads. -/
structure Contract where
  symbol : String
  secType : String
  exchange : String
  currency : String
deriving DecidableEq, Repr

/-- Model of `IBKRManager.create_contract`: both the `Stock` branch and the
generic branch produce a contract carrying exactly these four fields. -/
def create_contract (symbol : String) (sec_type : String) (exchange : String)
    (currency : String) : Contract :=
  { symbol := symbol, secType := sec_type, exchange := exchange, currency := currency }

/-- Fuelled slicing loop; the fuel only serves structural recursion and
never runs out when it starts at the list length and `0 < B`. -/
def chunksAux : Nat → Nat → List α → List (List α)
  | 0, _, _ => []
  | _ + 1, _, [] => []
  | fuel + 1, B, x :: xs => (x :: xs).take B :: chunksAux fuel B ((x :: xs).drop B)

/-- Python slicing loop `for i in range(0, len(l), B): l[i : i + B]`.
For `B = 0` Python's `range` raises before producing a window; the model
returns no windows, and every theorem about batching assumes `0 < B`. -/
def chunks (B : Nat) (l : List α) : List (List α) :=
  if B = 0 then [] else chunksAux l.length B l

/-- Model of the composite-key test in `qualify_contracts`:
`q_contract.symbol == original.symbol and q_contract.currency ==
original.currency and q_contract.secType == original.secType`. -/
def matches_key (q : Contract) (c : Contract) : Bool :=
  q.symbol = c.symbol && q.currency = c.currency && q.secType = c.secType

/-- Model of the inner matching loop: linear scan of the qualified batch,
first record satisfying the composite key wins (the `break`). -/
def findQualified (c : Contract) (qualified_batch : List Contract) : Option Contract :=
  qualified_batch.find? (fun q => matches_key q c)

/-- Dictionary writes performed for one batch window: on a normal return
every request gets its first key-matching record (or `none`), on an
exception every request in the window gets `none`. -/
def window_writes (r : Option (List Contract)) (batch : List Contract) :
    List (String × Option Contract) :=
  match r with
  | some qualified_batch => batch.map (fun c => (c.symbol, findQualified c qualified_batch))
  | none => batch.map (fun c => (c.symbol, none))

/-- The full, ordered sequence of dictionary writes of `qualify_contracts`,
`i` being the index of the next external call. -/
def qualify_writes (resp : Nat → Option (List Contract)) :
    Nat → List (List Contract) → List (String × Option Contract)
  | _, [] => []
  | i, w :: ws => window_writes (resp i) w ++ qualify_writes resp (i + 1) ws

/-- Model of `IBKRManager.qualify_contracts`: the returned dictionary,
built by replaying all writes. -/
def qualify_contracts (resp : Nat → Option (List Contract)) (symbols : List String)
    (sec_type : String) (exchange : String) (currency : String) (batch_size : Nat) :
    List (String × Option Contract) :=
  let contracts := symbols.map (fun s => create_contract s sec_type exchange currency)
  dictOf (qualify_writes resp 0 (chunks batch_size contracts))

/-! ### Lookup structure of the qualification dictionary -/

/-- The value a window's processing assigns to one of its requests. -/
def window_value (r : Option (List Contract)) (c : Contract) : Option Contract :=
  match r with
  | some qualified_batch => findQualified c qualified_batch
  | none => none

/-! ## AppleSupplierParser model (`src/scripts/apple_supplier/parse_apple_suppliers.py`)

`search_ticker` builds up to three search terms (full name, regex-stripped
name when different and non-empty, first whitespace token when longer than
two characters), skips terms shorter than two characters, queries the
search service per term, and accepts the first quote of a response when it
carries a truthy `symbol` and its `quoteType` is either `EQUITY` (after
upcasing) or absent.  Every exception — from the search call or from
`company_name.split()[0]` on a tokenless name — is caught and yields
`None`. -/

/-- The alternatives of the corporate-suffix regex in `search_ticker`, in
pattern order (Python alternation tries them left to right). -/
def suffixAlts : List (List Char) :=
  ["Corp", "Corporation", "Inc", "Incorporated", "Ltd", "Limited", "Co.",
   "Company", "LLC", "Group", "Holdings", "Technologies", "Tech", "Systems",
   "Solutions", "Industries", "Manufacturing", "Electronics",
   "Semiconductor"].map String.data

/-- Regex word character for `\b`. -/
def isWordChar (c : Char) : Bool :=
  c.isAlphanum || c == '_'

/-- Case-insensitive literal match of a pattern alternative against the
front of the input (the regex is compiled with `re.IGNORECASE`); returns
the remaining input on success. -/
def ciMatch : List Char → List Char → Option (List Char)
  | [], rest => some rest
  | _ :: _, [] => none
  | p :: ps, c :: cs => if p.toLower = c.toLower then ciMatch ps cs else none

/-- One `\b` test: a boundary holds when exactly one side is a word
character (an absent side counts as non-word). -/
def boundaryOk (left right : Option Char) : Bool :=
  (left.elim false isWordChar) != (right.elim false isWordChar)

/-- Try the alternatives of `\b(...)\b` at the current position in pattern
order; returns the length of the matched literal. -/
def tryAlts (prev : Option Char) (s : List Char) : List (List Char) → Option Nat
  | [] => none
  | a :: rest =>
    match ciMatch a s with
    | some remaining =>
      if boundaryOk prev s.head? && boundaryOk (s.take a.length).getLast? remaining.head? then
        some a.length
      else tryAlts prev s rest
    | none => tryAlts prev s rest

/-- Fuelled scan of `re.sub(pattern, "", name)`: at each position try a
boundary-guarded match; on success emit nothing and resume after the
matched text, otherwise emit the character.  `prev` is the character
preceding the current position in the original string. -/
def reSubAux : Nat → Option Char → List Char → List Char
  | 0, _, s => s
  | _ + 1, _, [] => []
  | fuel + 1, prev, c :: cs =>
    match tryAlts prev (c :: cs) suffixAlts with
    | some n => reSubAux fuel ((List.take n (c :: cs)).getLast?) (List.drop n (c :: cs))
    | none => c :: reSubAux fuel (some c) cs

/-- Model of the `re.sub(r"\b(Corp|...)\b", "", company_name,
flags=re.IGNORECASE)` call in `search_ticker`.  The fuel equals the input
length, which the scan never exhausts since every step consumes at least
one character. -/
def re_sub_suffixes (s : String) : String :=
  ⟨reSubAux s.data.length none s.data⟩

/-- Model of `search_ticker`'s term construction.  `none` models the
`IndexError` that `company_name.split()[0]` raises on a name without
tokens, which the surrounding `try` turns into a `None` resolution. -/
def search_terms_opt (company_name : String) : Option (List String) :=
  let clean_name := pyStrip (re_sub_suffixes company_name)
  let terms₁ := [company_name]
  let terms₂ :=
    if clean_name ≠ "" ∧ clean_name ≠ company_name then terms₁ ++ [clean_name]
    else terms₁
  match pySplit company_name with
  | [] => none
  | first_word :: _ =>
    some (if first_word.length > 2 then terms₂ ++ [first_word] else terms₂)

/-- The fields of a yahooquery quote record that `search_ticker` reads.
`none` models an absent key; `some ""` a present falsy value. -/
structure Quote where
  symbol : Option String
  quoteType : Option String
deriving DecidableEq, Repr

/-- Model of the acceptance test on the first quote of a search response:
`"symbol" in quote and quote["symbol"]`, then accept when
`quote.get("quoteType", "").upper() == "EQUITY"` or `"quoteType" not in
quote`. -/
def accept_quote (q : Quote) : Option String :=
  match q.symbol with
  | none => none
  | some s =>
    if s ≠ "" then
      match q.quoteType with
      | some t => if pyUpper t = "EQUITY" then some s else none
      | none => some s
    else none

/-- A search backend: per term, either a raised exception (`Except.error`),
a falsy result or one without a `quotes` key (`Except.ok none`), or a
quotes list. -/
def SearchBackend : Type :=
  String → Except Unit (Option (List Quote))

/-- One term's query and acceptance test inside `search_ticker`'s loop; the
per-term `try` turns a raised exception into a `continue`. -/
def try_term (backend : SearchBackend) (term : String) : Option String :=
  match backend term with
  | Except.error _ => none
  | Except.ok none => none
  | Except.ok (some []) => none
  | Except.ok (some (q :: _)) => accept_quote q

/-- The fallback loop of `search_ticker`: skip terms shorter than two
characters, stop at the first accepted result, `None` when the chain is
exhausted. -/
def run_chain (backend : SearchBackend) : List String → Option String
  | [] => none
  | t :: ts =>
    if t.length < 2 then run_chain backend ts
    else
      match try_term backend t with
      | some s => some s
      | none => run_chain backend ts

/-- The sequence of terms the fallback loop actually queries (instrumented
view of `run_chain`, used to settle how often a term is queried). -/
def run_chain_queried (backend : SearchBackend) : List String → List String
  | [] => []
  | t :: ts =>
    if t.length < 2 then run_chain_queried backend ts
    else
      match try_term backend t with
      | some _ => [t]
      | none => t :: run_chain_queried backend ts

/-- Model of `AppleSupplierParser.search_ticker`. -/
def search_ticker (backend : SearchBackend) (company_name : String) : Option String :=
  match search_terms_opt company_name with
  | none => none
  | some terms => run_chain backend terms

/-- How one submitted task ends: a normal return carrying the ticker
`Option`, or an exception surfaced by `future.result()`. -/
inductive TaskOutcome
  | ok (r : Option String)
  | err
deriving DecidableEq, Repr

/-- The value the completion loop of `find_tickers` stores for a task:
normal results are stored as returned, exceptions are stored as `None`. -/
def outcome_value : TaskOutcome → Option String
  | TaskOutcome.ok r => r
  | TaskOutcome.err => none

/-- Model of `AppleSupplierParser.find_tickers`: the tasks complete in the
order `completion` (an arbitrary permutation of the suppliers, since
`as_completed` drains them as they finish) and each completion writes one
dictionary entry for its supplier. -/
def find_tickers_model (outcome : String → TaskOutcome) (completion : List String) :
    List (String × Option String) :=
  dictOf (completion.map (fun s => (s, outcome_value (outcome s))))

/-- The summary `AppleSupplierParser.run` produces after the resolution
stage.  `tasks_run` counts the lookup tasks executed; `successRate` is
`none` when the run returned early without computing a rate. -/
structure RunReport where
  tickers : List (String × Option String)
  tasks_run : Nat
  successRate : Option ℚ
  success : Bool
deriving DecidableEq, Repr

/-- Model of the resolution stage of `AppleSupplierParser.run`: an empty
supplier list returns `False` before `find_tickers` is called; otherwise
the tickers are resolved and the summary rate is
`found_tickers / len(self.suppliers)`. -/
def run_model (outcome : String → TaskOutcome) (completion : List String)
    (suppliers : List String) : RunReport :=
  if suppliers.isEmpty then
    { tickers := [], tasks_run := 0, successRate := none, success := false }
  else
    let t := find_tickers_model outcome completion
    let found := (t.filter (fun p => p.2.isSome)).length
    { tickers := t, tasks_run := completion.length,
      successRate := some ((found : ℚ) / (suppliers.length : ℚ)), success := true }

/-! ## InputNormalizer model (`IBKRManager.load_symbols_from_file`)

The normalisation step applied to the raw symbols of any input file:
`symbols = sorted(list(set([s for s in symbols if s and s.strip()])))`
followed by `symbols = [s.split(".")[0] for s in symbols]`.  Python sorts
strings lexicographically by code point; the model uses an insertion sort
over that order, which agrees with `sorted` on the duplicate-free output
of `set`. -/

/-- Python string comparison `a < b`: lexicographic on code points. -/
def charListLt : List Char → List Char → Bool
  | [], [] => false
  | [], _ :: _ => true
  | _ :: _, [] => false
  | a :: as, b :: bs =>
    if a.toNat < b.toNat then true
    else if b.toNat < a.toNat then false
    else charListLt as bs

/-- Python string comparison `a <= b`. -/
def pyLe (a b : String) : Bool :=
  a = b || charListLt a.data b.data

/-- One step of insertion sort over Python string order. -/
def pyInsert (x : String) : List String → List String
  | [] => [x]
  | y :: ys => if pyLe x y then x :: y :: ys else y :: pyInsert x ys

/-- Insertion sort over Python string order, the model of `sorted`. -/
def pySorted : List String → List String
  | [] => []
  | x :: xs => pyInsert x (pySorted xs)

/-- Model of the normalisation tail of `load_symbols_from_file`. -/
def normalize_symbols (raws : List String) : List String :=
  let filtered := raws.filter (fun s => s ≠ "" ∧ pyStrip s ≠ "")
  (pySorted filtered.dedup).map pyDotHead

theorem dictLookup_nil (k : String) : dictLookup ([] : List (String × α)) k = none := by
  simp [dictLookup]

theorem dictLookup_cons (p : String × α) (ps : List (String × α)) (k : String) :
    dictLookup (p :: ps) k = if p.1 = k then some p.2 else dictLookup ps k := by
  by_cases h : p.1 = k
  · simp [dictLookup, List.find?_cons_of_pos, h]
  · simp [dictLookup, List.find?_cons_of_neg, h]

theorem dictKeys_dictInsert (d : List (String × α)) (k : String) (v : α) :
    dictKeys (dictInsert d k v) =
      if k ∈ dictKeys d then dictKeys d else dictKeys d ++ [k] := by
  induction d with
  | nil => simp [dictInsert, dictKeys]
  | cons p ps ih =>
    by_cases h : p.1 = k
    · simp [dictInsert, dictKeys, h]
    · simp only [dictInsert, if_neg h, dictKeys, List.map_cons] at ih ⊢
      rw [ih]
      by_cases hk : k ∈ List.map (fun p => p.1) ps
      · simp [hk, Ne.symm h]
      · simp [hk, Ne.symm h]

theorem dictLookup_dictInsert_self (d : List (String × α)) (k : String) (v : α) :
    dictLookup (dictInsert d k v) k = some v := by
  induction d with
  | nil => simp [dictInsert, dictLookup_cons, dictLookup_nil]
  | cons p ps ih =>
    by_cases h : p.1 = k
    · simp [dictInsert, h, dictLookup_cons]
    · simp only [dictInsert, if_neg h]
      rw [dictLookup_cons, if_neg h]
      exact ih

theorem dictLookup_dictInsert_ne (d : List (String × α)) (k k' : String) (v : α)
    (h : k' ≠ k) : dictLookup (dictInsert d k v) k' = dictLookup d k' := by
  induction d with
  | nil => simp [dictInsert, dictLookup_cons, dictLookup_nil, Ne.symm h]
  | cons p ps ih =>
    by_cases hp : p.1 = k
    · subst hp
      simp only [dictInsert, eq_self_iff_true, if_true]
      rw [dictLookup_cons, dictLookup_cons, if_neg (Ne.symm h), if_neg (Ne.symm h)]
    · simp only [dictInsert, if_neg hp]
      rw [dictLookup_cons, dictLookup_cons]
      by_cases hp' : p.1 = k'
      · simp [hp']
      · rw [if_neg hp', if_neg hp']
        exact ih

theorem dictOf_append_single (ws : List (String × α)) (p : String × α) :
    dictOf (ws ++ [p]) = dictInsert (dictOf ws) p.1 p.2 := by
  simp [dictOf, List.foldl_append]

theorem mem_firstDedup (k : String) (l : List String) :
    k ∈ firstDedup l ↔ k ∈ l := by
  induction l with
  | nil => simp [firstDedup]
  | cons x xs ih =>
    simp only [firstDedup, List.mem_cons, List.mem_filter, ih, decide_eq_true_eq]
    constructor
    · rintro (rfl | ⟨hk, _⟩)
      · exact Or.inl rfl
      · exact Or.inr hk
    · rintro (rfl | hk)
      · exact Or.inl rfl
      · by_cases hx : k = x
        · exact Or.inl hx
        · exact Or.inr ⟨hk, hx⟩

theorem firstDedup_append_single (l : List String) (k : String) :
    firstDedup (l ++ [k]) =
      if k ∈ firstDedup l then firstDedup l else firstDedup l ++ [k] := by
  induction l with
  | nil => simp [firstDedup]
  | cons x xs ih =>
    rw [List.cons_append]
    simp only [firstDedup]
    rw [ih]
    by_cases hx : k = x
    · subst hx
      by_cases hm : k ∈ firstDedup xs
      · simp [hm]
      · simp [hm, List.filter_append]
    · by_cases hm : k ∈ firstDedup xs
      · have hmem : k ∈ List.filter (fun y => decide (y ≠ x)) (firstDedup xs) := by
          simp [List.mem_filter, hm, hx]
        simp [hx, hm, hmem]
      · have hmem : k ∉ List.filter (fun y => decide (y ≠ x)) (firstDedup xs) := by
          simp [List.mem_filter, hm]
        simp [hx, hm, hmem, List.filter_append]

theorem dictKeys_dictOf (ws : List (String × α)) :
    dictKeys (dictOf ws) = firstDedup (dictKeys ws) := by
  induction ws using List.reverseRecOn with
  | nil => simp [dictOf, dictKeys, firstDedup]
  | append_singleton ws p ih =>
    rw [dictOf_append_single, dictKeys_dictInsert, ih]
    have hcat : dictKeys (ws ++ [p]) = dictKeys ws ++ [p.1] := by
      simp [dictKeys]
    rw [hcat, firstDedup_append_single]

/-- Last write wins: looking a key up in a replayed dictionary returns the
value of the rightmost write to that key. -/
theorem dictLookup_dictOf (ws : List (String × α)) (k : String) :
    dictLookup (dictOf ws) k =
      (ws.reverse.find? (fun p => p.1 = k)).map (fun p => p.2) := by
  induction ws using List.reverseRecOn with
  | nil => simp [dictOf, dictLookup]
  | append_singleton ws p ih =>
    rw [dictOf_append_single, List.reverse_append]
    simp only [List.reverse_singleton, List.singleton_append]
    by_cases h : p.1 = k
    · subst h
      rw [dictLookup_dictInsert_self, List.find?_cons_of_pos _ (by simp)]
      rfl
    · rw [dictLookup_dictInsert_ne _ _ _ _ (Ne.symm h), ih,
        List.find?_cons_of_neg _ (by simp [h])]

/-- When the written keys are pairwise distinct, replaying the writes is the
identity: the dictionary is exactly the write list. -/
theorem dictOf_of_nodup (ws : List (String × α)) (h : (dictKeys ws).Nodup) :
    dictOf ws = ws := by
  induction ws using List.reverseRecOn with
  | nil => simp [dictOf]
  | append_singleton ws p ih =>
    have hkeys : dictKeys (ws ++ [p]) = dictKeys ws ++ [p.1] := by simp [dictKeys]
    rw [hkeys] at h
    have hnd : (dictKeys ws).Nodup := (List.nodup_append.mp h).1
    have hnotin : p.1 ∉ dictKeys ws := by
      intro hc
      rcases List.nodup_append.mp h with ⟨_, _, hdis⟩
      exact hdis hc (by simp)
    rw [dictOf_append_single, ih hnd]
    have haux : ∀ d : List (String × α), p.1 ∉ dictKeys d →
        dictInsert d p.1 p.2 = d ++ [p] := by
      intro d
      induction d with
      | nil => intro _; simp [dictInsert]
      | cons q qs ihd =>
        intro hq
        simp only [dictKeys, List.map_cons, List.mem_cons] at hq
        push_neg at hq
        simp only [dictInsert, if_neg (Ne.symm hq.1), List.cons_append]
        rw [ihd hq.2]
    exact haux ws hnotin

/-- Looking up a key in a dictionary built from per-key values: the result
is determined by that key alone. -/
theorem dictLookup_dictOf_map (l : List String) (f : String → α) (k : String) :
    dictLookup (dictOf (l.map (fun s => (s, f s)))) k =
      if k ∈ l then some (f k) else none := by
  rw [dictLookup_dictOf, ← List.map_reverse]
  have hrev : k ∈ l ↔ k ∈ l.reverse := by simp
  rw [show (if k ∈ l then some (f k) else none) =
      (if k ∈ l.reverse then some (f k) else none) by rw [if_congr hrev rfl rfl]]
  induction l.reverse with
  | nil => simp
  | cons x xs ih =>
    simp only [List.map_cons]
    by_cases hx : x = k
    · subst hx
      rw [List.find?_cons_of_pos _ (by simp)]
      simp
    · rw [List.find?_cons_of_neg _ (by simp [hx]), ih]
      by_cases hk : k ∈ xs
      · simp [hk]
      · simp [hk, Ne.symm hx]

theorem chunksAux_congr (B : Nat) (hB : 0 < B) :
    ∀ fuel₁ fuel₂ (l : List α), l.length ≤ fuel₁ → l.length ≤ fuel₂ →
      chunksAux fuel₁ B l = chunksAux fuel₂ B l := by
  intro fuel₁
  induction fuel₁ with
  | zero =>
    intro fuel₂ l h1 _
    rw [List.length_eq_zero.mp (Nat.le_zero.mp h1)]
    cases fuel₂ <;> rfl
  | succ f ih =>
    intro fuel₂ l h1 h2
    match l, fuel₂ with
    | [], 0 => rfl
    | [], f₂ + 1 => rfl
    | x :: xs, 0 => simp at h2
    | x :: xs, f₂ + 1 =>
      simp only [chunksAux]
      have hd : ((x :: xs).drop B).length ≤ f ∧ ((x :: xs).drop B).length ≤ f₂ := by
        simp only [List.length_drop, List.length_cons]
        simp only [List.length_cons] at h1 h2
        omega
      rw [ih f₂ _ hd.1 hd.2]

/-! ### Batching lemmas -/

theorem chunks_nil (B : Nat) : chunks B ([] : List α) = [] := by
  rw [chunks]
  split <;> rfl

theorem chunks_zero (l : List α) : chunks 0 l = [] := by
  rw [chunks]
  simp

theorem chunks_cons (B : Nat) (hB : 0 < B) (x : α) (xs : List α) :
    chunks B (x :: xs) = (x :: xs).take B :: chunks B ((x :: xs).drop B) := by
  have hne : B ≠ 0 := Nat.pos_iff_ne_zero.mp hB
  rw [chunks, chunks, if_neg hne, if_neg hne]
  simp only [List.length_cons, chunksAux]
  have hd : ((x :: xs).drop B).length ≤ xs.length ∧
      ((x :: xs).drop B).length ≤ ((x :: xs).drop B).length := by
    simp only [List.length_drop, List.length_cons]
    omega
  rw [chunksAux_congr B hB xs.length ((x :: xs).drop B).length _ hd.1 hd.2]

theorem chunks_join (B : Nat) (hB : 0 < B) (l : List α) :
    (chunks B l).flatten = l := by
  have haux : ∀ n, ∀ l : List α, l.length ≤ n → (chunks B l).flatten = l := by
    intro n
    induction n with
    | zero =>
      intro l hl
      rw [List.length_eq_zero.mp (Nat.le_zero.mp hl)]
      simp [chunks_nil]
    | succ n ih =>
      intro l hl
      match l with
      | [] => simp [chunks_nil]
      | x :: xs =>
        rw [chunks_cons B hB]
        have hlt : ((x :: xs).drop B).length ≤ n := by
          simp only [List.length_drop, List.length_cons]
          simp only [List.length_cons] at hl
          omega
        rw [List.flatten_cons, ih _ hlt, List.take_append_drop]
  exact haux l.length l le_rfl

theorem chunks_length_le (B : Nat) (l : List α) :
    ∀ w ∈ chunks B l, w.length ≤ B := by
  have haux : ∀ n, ∀ l : List α, l.length ≤ n → ∀ w ∈ chunks B l, w.length ≤ B := by
    intro n
    induction n with
    | zero =>
      intro l hl
      rw [List.length_eq_zero.mp (Nat.le_zero.mp hl)]
      simp [chunks_nil]
    | succ n ih =>
      intro l hl
      match l with
      | [] => simp [chunks_nil]
      | x :: xs =>
        by_cases hB : B = 0
        · subst hB
          rw [chunks]
          simp
        · rw [chunks_cons B (Nat.pos_of_ne_zero hB)]
          intro w hw
          rcases List.mem_cons.mp hw with h | h
          · subst h
            simp
          · have hlt : ((x :: xs).drop B).length ≤ n := by
              simp only [List.length_drop, List.length_cons]
              simp only [List.length_cons] at hl
              omega
            exact ih _ hlt w h
  exact haux l.length l le_rfl

theorem chunks_count (B : Nat) (hB : 0 < B) (l : List α) :
    (chunks B l).length = (l.length + B - 1) / B := by
  have haux : ∀ n, ∀ l : List α, l.length ≤ n →
      (chunks B l).length = (l.length + B - 1) / B := by
    intro n
    induction n with
    | zero =>
      intro l hl
      rw [List.length_eq_zero.mp (Nat.le_zero.mp hl), chunks_nil]
      simp only [List.length_nil, Nat.zero_add]
      exact (Nat.div_eq_of_lt (by omega)).symm
    | succ n ih =>
      intro l hl
      match l with
      | [] =>
        rw [chunks_nil]
        simp only [List.length_nil, Nat.zero_add]
        exact (Nat.div_eq_of_lt (by omega)).symm
      | x :: xs =>
        rw [chunks_cons B hB]
        have hlt : ((x :: xs).drop B).length ≤ n := by
          simp only [List.length_drop, List.length_cons]
          simp only [List.length_cons] at hl
          omega
        rw [List.length_cons, ih _ hlt]
        simp only [List.length_drop, List.length_cons]
        by_cases hcase : B ≤ xs.length + 1
        · have heq : xs.length + 1 + B - 1 = (xs.length + 1 - B + B - 1) + B := by omega
          rw [heq, Nat.add_div_right _ hB]
        · have h0 : xs.length + 1 - B = 0 := by omega
          rw [h0, Nat.zero_add, Nat.div_eq_of_lt (show B - 1 < B by omega)]
          have heq : xs.length + 1 + B - 1 = xs.length + B := by omega
          rw [heq, Nat.add_div_right _ hB, Nat.div_eq_of_lt (show xs.length < B by omega)]
  exact haux l.length l le_rfl

theorem chunks_map (B : Nat) (f : α → β) (l : List α) :
    chunks B (l.map f) = (chunks B l).map (List.map f) := by
  have haux : ∀ n, ∀ l : List α, l.length ≤ n →
      chunks B (l.map f) = (chunks B l).map (List.map f) := by
    intro n
    induction n with
    | zero =>
      intro l hl
      rw [List.length_eq_zero.mp (Nat.le_zero.mp hl)]
      simp [chunks_nil]
    | succ n ih =>
      intro l hl
      by_cases hB : B = 0
      · subst hB
        rw [chunks_zero, chunks_zero]
        rfl
      · match l with
        | [] => simp [chunks_nil]
        | x :: xs =>
          rw [List.map_cons, chunks_cons B (Nat.pos_of_ne_zero hB),
            chunks_cons B (Nat.pos_of_ne_zero hB)]
          have hlt : ((x :: xs).drop B).length ≤ n := by
            simp only [List.length_drop, List.length_cons]
            simp only [List.length_cons] at hl
            omega
          have hc : (f x :: List.map f xs) = List.map f (x :: xs) := rfl
          rw [hc, ← List.map_take, ← List.map_drop, ih _ hlt, List.map_cons]
  exact haux l.length l le_rfl

theorem window_writes_eq_map (r : Option (List Contract)) (batch : List Contract) :
    window_writes r batch = batch.map (fun c => (c.symbol, window_value r c)) := by
  cases r <;> rfl

theorem dictKeys_append (d₁ d₂ : List (String × α)) :
    dictKeys (d₁ ++ d₂) = dictKeys d₁ ++ dictKeys d₂ := by
  simp [dictKeys]

theorem dictKeys_window_writes (r : Option (List Contract)) (batch : List Contract) :
    dictKeys (window_writes r batch) = batch.map Contract.symbol := by
  rw [window_writes_eq_map]
  simp [dictKeys]

theorem dictKeys_qualify_writes (resp : Nat → Option (List Contract)) (i : Nat)
    (ws : List (List Contract)) :
    dictKeys (qualify_writes resp i ws) = ws.flatten.map Contract.symbol := by
  induction ws generalizing i with
  | nil => simp [qualify_writes, dictKeys]
  | cons w rest ih =>
    rw [qualify_writes, dictKeys_append, dictKeys_window_writes, ih,
      List.flatten_cons, List.map_append]

theorem dictLookup_append (d₁ d₂ : List (String × α)) (k : String) :
    dictLookup (d₁ ++ d₂) k = (dictLookup d₁ k).or (dictLookup d₂ k) := by
  simp only [dictLookup, List.find?_append]
  cases d₁.find? (fun p => p.1 = k) <;> simp

theorem dictLookup_eq_none_iff (d : List (String × α)) (k : String) :
    dictLookup d k = none ↔ k ∉ dictKeys d := by
  induction d with
  | nil => simp [dictLookup_nil, dictKeys]
  | cons p ps ih =>
    rw [dictLookup_cons]
    by_cases h : p.1 = k
    · simp [dictKeys, h]
    · rw [if_neg h, ih]
      simp only [dictKeys, List.map_cons, List.mem_cons]
      constructor
      · intro hn hm
        rcases hm with hm | hm
        · exact h hm.symm
        · exact hn hm
      · intro hn hm
        exact hn (Or.inr hm)

/-- Looking a symbol up in a write list built from per-contract values:
the first contract of the batch carrying that symbol decides the value. -/
theorem dictLookup_map_pair (w : List Contract) (g : Contract → α) (c : Contract)
    (hnd : (w.map Contract.symbol).Nodup) (hc : c ∈ w) :
    dictLookup (w.map (fun d => (d.symbol, g d))) c.symbol = some (g c) := by
  induction w with
  | nil => cases hc
  | cons c₀ rest ih =>
    rw [List.map_cons, dictLookup_cons]
    rcases List.mem_cons.mp hc with rfl | hmem
    · rw [if_pos rfl]
    · by_cases hs : c₀.symbol = c.symbol
      · exfalso
        rw [List.map_cons, List.nodup_cons] at hnd
        exact hnd.1 (hs ▸ List.mem_map_of_mem Contract.symbol hmem)
      · rw [if_neg hs]
        exact ih (by rw [List.map_cons, List.nodup_cons] at hnd; exact hnd.2) hmem

/-- A window index can hold a given element of a duplicate-free flattening
only once. -/
theorem flatten_nodup_unique_window {L : List (List α)} (hnd : L.flatten.Nodup)
    (i j : Nat) (wi wj : List α) (hi : L.get? i = some wi) (hj : L.get? j = some wj)
    (a : α) (hai : a ∈ wi) (haj : a ∈ wj) : i = j := by
  induction L generalizing i j with
  | nil => simp at hi
  | cons w rest ih =>
    rw [List.flatten_cons, List.nodup_append] at hnd
    match i, j with
    | 0, 0 => rfl
    | 0, j + 1 =>
      exfalso
      simp only [List.get?_cons_zero, Option.some_inj] at hi
      subst hi
      have hwj : wj ∈ rest := List.get?_mem (by simpa using hj)
      exact hnd.2.2 hai (List.mem_flatten.mpr ⟨wj, hwj, haj⟩)
    | i + 1, 0 =>
      exfalso
      simp only [List.get?_cons_zero, Option.some_inj] at hj
      subst hj
      have hwi : wi ∈ rest := List.get?_mem (by simpa using hi)
      exact hnd.2.2 haj (List.mem_flatten.mpr ⟨wi, hwi, hai⟩)
    | i + 1, j + 1 =>
      have := ih hnd.2.1 i j (by simpa using hi) (by simpa using hj)
      omega

/-- Looking a request's symbol up in the full write sequence lands in the
write of the window that contains the request. -/
theorem qualify_writes_lookup (resp : Nat → Option (List Contract)) (i : Nat)
    (ws : List (List Contract)) (j : Nat) (w : List Contract) (c : Contract)
    (hj : ws.get? j = some w) (hc : c ∈ w)
    (hnd : (ws.flatten.map Contract.symbol).Nodup) :
    dictLookup (qualify_writes resp i ws) c.symbol = some (window_value (resp (i + j)) c) := by
  induction ws generalizing i j with
  | nil => simp at hj
  | cons w₀ rest ih =>
    rw [qualify_writes, dictLookup_append]
    rw [List.flatten_cons, List.map_append, List.nodup_append] at hnd
    match j with
    | 0 =>
      simp only [List.get?_cons_zero, Option.some_inj] at hj
      subst hj
      rw [window_writes_eq_map, dictLookup_map_pair w₀ _ c hnd.1 hc]
      simp
    | j + 1 =>
      have hw : w ∈ rest := List.get?_mem (by simpa using hj)
      have hcs : c.symbol ∈ rest.flatten.map Contract.symbol :=
        List.mem_map_of_mem _ (List.mem_flatten.mpr ⟨w, hw, hc⟩)
      have hnotin : c.symbol ∉ dictKeys (window_writes (resp i) w₀) := by
        rw [dictKeys_window_writes]
        intro hmem
        exact hnd.2.2 hmem hcs
      rw [(dictLookup_eq_none_iff _ _).mpr hnotin, Option.none_or]
      have harith : i + (j + 1) = i + 1 + j := by omega
      rw [harith]
      exact ih (i + 1) j (by simpa using hj) hnd.2.1

theorem charListLt_irrefl : ∀ a : List Char, charListLt a a = false := by
  intro a
  induction a with
  | nil => rfl
  | cons c cs ih => simp [charListLt, ih]

theorem charListLt_connex : ∀ a b : List Char, a ≠ b →
    charListLt a b = true ∨ charListLt b a = true := by
  intro a
  induction a with
  | nil =>
    intro b hb
    match b with
    | [] => exact absurd rfl hb
    | c :: cs => exact Or.inl rfl
  | cons c cs ih =>
    intro b hb
    match b with
    | [] => exact Or.inr rfl
    | d :: ds =>
      by_cases hcd : c.toNat < d.toNat
      · exact Or.inl (by simp [charListLt, hcd])
      · by_cases hdc : d.toNat < c.toNat
        · exact Or.inr (by simp [charListLt, hdc])
        · have hc : c = d := by
            apply Char.ext
            apply UInt32.toNat.inj
            simp only [Char.toNat] at hcd hdc
            omega
          subst hc
          have hcs : cs ≠ ds := by
            intro h
            exact hb (by rw [h])
          rcases ih ds hcs with h | h
          · exact Or.inl (by simp [charListLt, h])
          · exact Or.inr (by simp [charListLt, h])

theorem charListLt_trans : ∀ a b c : List Char,
    charListLt a b = true → charListLt b c = true → charListLt a c = true := by
  intro a
  induction a with
  | nil =>
    intro b c hab hbc
    match b, c with
    | [], _ => simp [charListLt] at hab
    | _ :: _, [] => simp [charListLt] at hbc
    | _ :: _, _ :: _ => rfl
  | cons x xs ih =>
    intro b c hab hbc
    match b, c with
    | [], _ => simp [charListLt] at hab
    | _ :: _, [] => simp [charListLt] at hbc
    | y :: ys, z :: zs =>
      simp only [charListLt] at hab hbc ⊢
      by_cases h1 : x.toNat < y.toNat
      · rw [if_pos h1] at hab
        by_cases h3 : y.toNat < z.toNat
        · simp [show x.toNat < z.toNat by omega]
        · by_cases h4 : z.toNat < y.toNat
          · rw [if_neg h3, if_pos h4] at hbc
            simp at hbc
          · simp [show x.toNat < z.toNat by omega]
      · by_cases h2 : y.toNat < x.toNat
        · rw [if_neg h1, if_pos h2] at hab
          simp at hab
        · rw [if_neg h1, if_neg h2] at hab
          by_cases h3 : y.toNat < z.toNat
          · simp [show x.toNat < z.toNat by omega]
          · by_cases h4 : z.toNat < y.toNat
            · rw [if_neg h3, if_pos h4] at hbc
              simp at hbc
            · rw [if_neg h3, if_neg h4] at hbc
              rw [if_neg (show ¬x.toNat < z.toNat by omega),
                if_neg (show ¬z.toNat < x.toNat by omega)]
              exact ih ys zs hab hbc

theorem pyLe_total (a b : String) : pyLe a b = true ∨ pyLe b a = true := by
  by_cases hab : a = b
  · exact Or.inl (by simp [pyLe, hab])
  · have hd : a.data ≠ b.data := fun h => hab (congrArg String.mk h)
    rcases charListLt_connex a.data b.data hd with h | h
    · exact Or.inl (by simp [pyLe, h])
    · exact Or.inr (by simp [pyLe, h])

theorem pyLe_trans (a b c : String) (hab : pyLe a b = true) (hbc : pyLe b c = true) :
    pyLe a c = true := by
  simp only [pyLe, Bool.or_eq_true, decide_eq_true_eq] at hab hbc ⊢
  rcases hab with rfl | hab
  · exact hbc
  · rcases hbc with rfl | hbc
    · exact Or.inr hab
    · exact Or.inr (charListLt_trans _ _ _ hab hbc)

theorem pyInsert_perm (x : String) (l : List String) :
    (pyInsert x l).Perm (x :: l) := by
  induction l with
  | nil => rfl
  | cons y ys ih =>
    rw [pyInsert]
    by_cases h : pyLe x y = true
    · rw [if_pos h]
    · rw [if_neg h]
      exact (ih.cons y).trans (List.Perm.swap x y ys)

theorem pySorted_perm (l : List String) : (pySorted l).Perm l := by
  induction l with
  | nil => rfl
  | cons x xs ih => exact (pyInsert_perm x (pySorted xs)).trans (ih.cons x)

theorem pairwise_pyInsert (x : String) (l : List String)
    (h : List.Pairwise (fun a b => pyLe a b = true) l) :
    List.Pairwise (fun a b => pyLe a b = true) (pyInsert x l) := by
  induction l with
  | nil => simp [pyInsert]
  | cons y ys ih =>
    rw [List.pairwise_cons] at h
    rw [pyInsert]
    by_cases hxy : pyLe x y = true
    · rw [if_pos hxy, List.pairwise_cons]
      constructor
      · intro z hz
        rcases List.mem_cons.mp hz with rfl | hz
        · exact hxy
        · exact pyLe_trans x y z hxy (h.1 z hz)
      · rw [List.pairwise_cons]
        exact h
    · rw [if_neg hxy, List.pairwise_cons]
      have hyx : pyLe y x = true := by
        rcases pyLe_total x y with hc | hc
        · exact absurd hc hxy
        · exact hc
      constructor
      · intro z hz
        have : z ∈ x :: ys := (pyInsert_perm x ys).mem_iff.mp hz
        rcases List.mem_cons.mp this with rfl | hz'
        · exact hyx
        · exact h.1 z hz'
      · exact ih h.2

theorem pairwise_pySorted (l : List String) :
    List.Pairwise (fun a b => pyLe a b = true) (pySorted l) := by
  induction l with
  | nil => simp [pySorted]
  | cons x xs ih => exact pairwise_pyInsert x (pySorted xs) ih

/-! ## Helper lemmas tying the pieces together -/

theorem symbol_create_contract (s st ex cu : String) :
    (create_contract s st ex cu).symbol = s := rfl

theorem create_contract_injective (st ex cu : String) :
    Function.Injective (fun s => create_contract s st ex cu) := by
  intro a b h
  exact congrArg Contract.symbol h

/-- The write keys of `qualify_contracts` are exactly the input symbols in
input order, whatever the responses are. -/
theorem qualify_keys (resp : Nat → Option (List Contract)) (symbols : List String)
    (st ex cu : String) (B : Nat) (hB : 0 < B) :
    dictKeys (qualify_writes resp 0
        (chunks B (symbols.map (fun s => create_contract s st ex cu)))) = symbols := by
  rw [dictKeys_qualify_writes, chunks_join B hB, List.map_map]
  have : (Contract.symbol ∘ fun s => create_contract s st ex cu) = id := by
    funext s
    rfl
  rw [this, List.map_id]

/-- The dictionary built by the completion loop, when the completion order
is duplicate-free, lists exactly the completed tasks in completion order. -/
theorem find_tickers_keys (outcome : String → TaskOutcome) (completion : List String)
    (h : completion.Nodup) :
    (find_tickers_model outcome completion).map Prod.fst = completion := by
  unfold find_tickers_model
  rw [dictOf_of_nodup]
  · rw [List.map_map]
    exact List.map_id completion
  · have : dictKeys (completion.map (fun s => (s, outcome_value (outcome s))))
        = completion := by
      rw [dictKeys, List.map_map]
      exact List.map_id completion
    rw [this]
    exact h

/-- A chain every element of which is skipped or rejected resolves to
nothing. -/
theorem run_chain_exhausts (backend : SearchBackend) (ts : List String)
    (h : ∀ t ∈ ts, t.length < 2 ∨ try_term backend t = none) :
    run_chain backend ts = none := by
  induction ts with
  | nil => rfl
  | cons t ts ih =>
    rw [run_chain]
    rcases h t (by simp) with hs | hs
    · rw [if_pos hs]
      exact ih (fun u hu => h u (by simp [hu]))
    · by_cases hlen : t.length < 2
      · rw [if_pos hlen]
        exact ih (fun u hu => h u (by simp [hu]))
      · rw [if_neg hlen, hs]
        exact ih (fun u hu => h u (by simp [hu]))

theorem run_chain_skip (backend : SearchBackend) (t : String) (ts : List String)
    (h : t.length < 2) : run_chain backend (t :: ts) = run_chain backend ts := by
  rw [run_chain, if_pos h]

theorem run_chain_stop (backend : SearchBackend) (t : String) (ts : List String)
    (s : String) (hlen : 2 ≤ t.length) (h : try_term backend t = some s) :
    run_chain backend (t :: ts) = some s := by
  rw [run_chain, if_neg (by omega), h]

theorem run_chain_miss (backend : SearchBackend) (t : String) (ts : List String)
    (hlen : 2 ≤ t.length) (h : try_term backend t = none) :
    run_chain backend (t :: ts) = run_chain backend ts := by
  rw [run_chain, if_neg (by omega), h]

/-! ## Claim theorems -/

/-- Claim C2: for N requests and batch size B > 0, `qualify_contracts`
slices the contract list into exactly ceil(N/B) contiguous windows in
original order, each of size at most B, with no request omitted and none
repeated; 120 requests with B = 50 give window sizes 50, 50, 20. -/
theorem claim_C2 (symbols : List String) (st ex cu : String) (B : Nat) (hB : 0 < B) :
    ((chunks B (symbols.map (fun s => create_contract s st ex cu))).length
        = (symbols.length + B - 1) / B)
    ∧ (∀ w ∈ chunks B (symbols.map (fun s => create_contract s st ex cu)),
        w.length ≤ B)
    ∧ ((chunks B (symbols.map (fun s => create_contract s st ex cu))).flatten
        = symbols.map (fun s => create_contract s st ex cu))
    ∧ ((chunks 50 ((List.range 120).map
          (fun n => create_contract (toString n) st ex cu))).map List.length
        = [50, 50, 20]) := by
  refine ⟨?_, chunks_length_le B _, chunks_join B hB _, ?_⟩
  · rw [chunks_count B hB, List.length_map]
  · rw [chunks_map, List.map_map]
    have hlen : (List.length ∘ List.map fun n : Nat => create_contract (toString n) st ex cu)
        = List.length := by
      funext w
      simp
    rw [hlen]
    decide

theorem claim_C2_witness :
    0 < 50
    ∧ ((chunks 50 ((List.range 120).map
          (fun n => create_contract (toString n) "STK" "SMART" "USD"))).map List.length
        = [50, 50, 20]) :=
  ⟨by decide, (claim_C2 [] "STK" "SMART" "USD" 50 (by decide)).2.2.2⟩

/-- Claim C1: on a duplicate-free input of size N, `qualify_contracts`
returns a mapping whose keys are exactly the N input symbols (each bound
to exactly one terminal value), and `find_tickers` returns one entry per
supplier, each bound to exactly the value its own task completion wrote —
on every path, including batch-error and task-error outcomes, which are
part of `resp` and `outcome`. -/
theorem claim_C1 (resp : Nat → Option (List Contract)) (symbols : List String)
    (st ex cu : String) (B : Nat) (hB : 0 < B) (hnd : symbols.Nodup)
    (outcome : String → TaskOutcome) (suppliers completion : List String)
    (hnd₂ : suppliers.Nodup) (hperm : completion.Perm suppliers) :
    ((qualify_contracts resp symbols st ex cu B).map Prod.fst = symbols)
    ∧ (∀ s ∈ symbols, ∃ r : Option Contract,
        dictLookup (qualify_contracts resp symbols st ex cu B) s = some r)
    ∧ ((find_tickers_model outcome completion).map Prod.fst = completion)
    ∧ (completion.length = suppliers.length)
    ∧ (∀ s ∈ suppliers,
        dictLookup (find_tickers_model outcome completion) s
          = some (outcome_value (outcome s))) := by
  have hkeys := qualify_keys resp symbols st ex cu B hB
  have hdict : qualify_contracts resp symbols st ex cu B
      = qualify_writes resp 0
          (chunks B (symbols.map (fun s => create_contract s st ex cu))) := by
    unfold qualify_contracts
    exact dictOf_of_nodup _ (by rw [hkeys]; exact hnd)
  have hcn : completion.Nodup := hperm.nodup_iff.mpr hnd₂
  refine ⟨?_, ?_, find_tickers_keys outcome completion hcn, hperm.length_eq, ?_⟩
  · rw [hdict]
    exact hkeys
  · intro s hs
    have hne : dictLookup (qualify_contracts resp symbols st ex cu B) s ≠ none := by
      intro hc
      rw [dictLookup_eq_none_iff, hdict, hkeys] at hc
      exact hc hs
    rcases Option.ne_none_iff_exists.mp hne with ⟨r, hr⟩
    exact ⟨r, hr.symm⟩
  · intro s hs
    unfold find_tickers_model
    rw [dictLookup_dictOf_map, if_pos (hperm.mem_iff.mpr hs)]

theorem claim_C1_witness :
    ((qualify_contracts (fun _ => some []) ["A", "B"] "STK" "SMART" "USD" 50).map
        Prod.fst = ["A", "B"])
    ∧ ((find_tickers_model (fun _ => TaskOutcome.ok none) ["X"]).map Prod.fst
        = ["X"]) :=
  ⟨(claim_C1 (fun _ => some []) ["A", "B"] "STK" "SMART" "USD" 50 (by decide)
      (by decide) (fun _ => TaskOutcome.ok none) ["X"] ["X"] (by decide)
      (List.Perm.refl _)).1,
   (claim_C1 (fun _ => some []) ["A", "B"] "STK" "SMART" "USD" 50 (by decide)
      (by decide) (fun _ => TaskOutcome.ok none) ["X"] ["X"] (by decide)
      (List.Perm.refl _)).2.2.1⟩

/-- Claim C10: with duplicate input symbols, `qualify_contracts` returns a
mapping keyed by the distinct symbols in first-occurrence order (fewer
keys than inputs), the stored value being the one written by the last
processed occurrence; duplicates are collapsed silently.  The concrete
instance shows `["A", "A"]` with batch size one keeping the second
window's (failing) result. -/
theorem claim_C10 (resp : Nat → Option (List Contract)) (symbols : List String)
    (st ex cu : String) (B : Nat) (hB : 0 < B) :
    ((qualify_contracts resp symbols st ex cu B).map Prod.fst = firstDedup symbols)
    ∧ (∀ s, dictLookup (qualify_contracts resp symbols st ex cu B) s
        = ((qualify_writes resp 0
              (chunks B (symbols.map (fun s => create_contract s st ex cu)))).reverse.find?
            (fun p => p.1 = s)).map (fun p => p.2))
    ∧ (qualify_contracts
          (fun i => if i = 0 then some [⟨"A", "STK", "X", "USD"⟩] else none)
          ["A", "A"] "STK" "SMART" "USD" 1
        = [("A", none)]) := by
  refine ⟨?_, ?_, by decide⟩
  · have h₁ : (qualify_contracts resp symbols st ex cu B).map Prod.fst
        = dictKeys (qualify_contracts resp symbols st ex cu B) := rfl
    rw [h₁]
    unfold qualify_contracts
    rw [dictKeys_dictOf, qualify_keys resp symbols st ex cu B hB]
  · intro s
    unfold qualify_contracts
    rw [dictLookup_dictOf]

/-- Claim C4: when the external call of exactly one batch window raises
(the responses are intact everywhere except window `k`, where the model
substitutes a raised exception), every request of that window is mapped to
null, every request of every other window receives exactly the result the
original responses determine, and the resolution is not aborted: the
mapping still carries every input symbol. -/
theorem claim_C4 (resp : Nat → Option (List Contract)) (symbols : List String)
    (st ex cu : String) (B k : Nat) (hB : 0 < B) (hnd : symbols.Nodup)
    (wk : List String) (hk : (chunks B symbols).get? k = some wk)
    (_hall : ∀ i < (chunks B symbols).length, (resp i).isSome) :
    ((qualify_contracts (fun i => if i = k then none else resp i)
        symbols st ex cu B).map Prod.fst = symbols)
    ∧ (∀ s ∈ symbols, s ∈ wk →
        dictLookup (qualify_contracts (fun i => if i = k then none else resp i)
          symbols st ex cu B) s = some none)
    ∧ (∀ s ∈ symbols, s ∉ wk →
        dictLookup (qualify_contracts (fun i => if i = k then none else resp i)
          symbols st ex cu B) s
        = dictLookup (qualify_contracts resp symbols st ex cu B) s) := by
  have hcomp : (Contract.symbol ∘ fun s => create_contract s st ex cu) = id := by
    funext s
    rfl
  have hdict : ∀ r : Nat → Option (List Contract),
      qualify_contracts r symbols st ex cu B
        = qualify_writes r 0
            (chunks B (symbols.map (fun s => create_contract s st ex cu))) := by
    intro r
    unfold qualify_contracts
    exact dictOf_of_nodup _ (by rw [qualify_keys r symbols st ex cu B hB]; exact hnd)
  have hndflat : (((chunks B (symbols.map (fun s => create_contract s st ex cu))).flatten).map
      Contract.symbol).Nodup := by
    rw [chunks_join B hB, List.map_map, hcomp, List.map_id]
    exact hnd
  have hkw : (chunks B (symbols.map (fun s => create_contract s st ex cu))).get? k
      = some (wk.map (fun s => create_contract s st ex cu)) := by
    rw [chunks_map, List.get?_eq_getElem?, List.getElem?_map,
      ← List.get?_eq_getElem?, hk]
    rfl
  have hfind : ∀ s ∈ symbols, ∃ j w,
      (chunks B (symbols.map (fun s => create_contract s st ex cu))).get? j = some w
      ∧ create_contract s st ex cu ∈ w := by
    intro s hs
    have hcmem : create_contract s st ex cu
        ∈ (chunks B (symbols.map (fun s => create_contract s st ex cu))).flatten := by
      rw [chunks_join B hB]
      exact List.mem_map_of_mem _ hs
    rcases List.mem_flatten.mp hcmem with ⟨w, hw, hcw⟩
    rcases List.mem_iff_get?.mp hw with ⟨j, hj⟩
    exact ⟨j, w, hj, hcw⟩
  have hwkmem : ∀ s, create_contract s st ex cu
      ∈ wk.map (fun s => create_contract s st ex cu) → s ∈ wk := by
    intro s hmem
    rcases List.mem_map.mp hmem with ⟨u, hu, hequ⟩
    have : u = s := congrArg Contract.symbol hequ
    exact this ▸ hu
  refine ⟨?_, ?_, ?_⟩
  · rw [hdict]
    exact qualify_keys _ symbols st ex cu B hB
  · intro s hs hswk
    rw [hdict]
    have hcw : create_contract s st ex cu
        ∈ wk.map (fun s => create_contract s st ex cu) :=
      List.mem_map_of_mem _ hswk
    have := qualify_writes_lookup (fun i => if i = k then none else resp i) 0 _ k
      (wk.map (fun s => create_contract s st ex cu))
      (create_contract s st ex cu) hkw hcw hndflat
    rw [symbol_create_contract] at this
    rw [this]
    simp [window_value]
  · intro s hs hsnot
    rcases hfind s hs with ⟨j, w, hj, hcw⟩
    have hjk : j ≠ k := by
      intro hc
      subst hc
      rw [hj] at hkw
      have hweq : w = wk.map (fun s => create_contract s st ex cu) :=
        Option.some_inj.mp hkw
      exact hsnot (hwkmem s (hweq ▸ hcw))
    have h₁ := qualify_writes_lookup (fun i => if i = k then none else resp i) 0 _ j w
      (create_contract s st ex cu) hj hcw hndflat
    have h₂ := qualify_writes_lookup resp 0 _ j w
      (create_contract s st ex cu) hj hcw hndflat
    rw [symbol_create_contract] at h₁ h₂
    rw [hdict, hdict, h₁, h₂]
    have hne : (0 : Nat) + j ≠ k := by omega
    simp only [Nat.zero_add]
    rw [if_neg hjk]

theorem claim_C4_witness :
    ((qualify_contracts
        (fun i => if i = 0 then none else (fun _ => some ([] : List Contract)) i)
        ["A", "B"] "STK" "SMART" "USD" 1).map Prod.fst = ["A", "B"])
    ∧ dictLookup (qualify_contracts
        (fun i => if i = 0 then none else (fun _ => some ([] : List Contract)) i)
        ["A", "B"] "STK" "SMART" "USD" 1) "A" = some none :=
  ⟨(claim_C4 (fun _ => some []) ["A", "B"] "STK" "SMART" "USD" 1 0 (by decide)
      (by decide) ["A"] (by decide) (by decide)).1,
   (claim_C4 (fun _ => some []) ["A", "B"] "STK" "SMART" "USD" 1 0 (by decide)
      (by decide) ["A"] (by decide) (by decide)).2.1 "A" (by decide) (by decide)⟩

theorem claim_C10_witness :
    ((qualify_contracts (fun _ => some []) ["A", "B", "A"] "STK" "SMART" "USD" 50).map
        Prod.fst = firstDedup ["A", "B", "A"])
    ∧ (qualify_contracts
          (fun i => if i = 0 then some [⟨"A", "STK", "X", "USD"⟩] else none)
          ["A", "A"] "STK" "SMART" "USD" 1
        = [("A", none)]) :=
  ⟨(claim_C10 (fun _ => some []) ["A", "B", "A"] "STK" "SMART" "USD" 50 (by decide)).1,
   (claim_C10 (fun _ => some []) ["A", "B", "A"] "STK" "SMART" "USD" 50 (by decide)).2.2⟩

/-- Claim C3 counterexample: with a duplicate symbol inside one window the
single returned record is matched to two different requests (positions 0
and 1) of the same batch, against the claim that no record is matched to
two different requests. -/
theorem claim_C3_cex :
    window_writes (some [⟨"A", "STK", "X", "USD"⟩])
        [create_contract "A" "STK" "SMART" "USD",
         create_contract "A" "STK" "SMART" "USD"]
      = [("A", some ⟨"A", "STK", "X", "USD"⟩),
         ("A", some ⟨"A", "STK", "X", "USD"⟩)] := by
  decide

/-- Claim C3 (amended): each request is matched by a linear scan of the
returned records in which the first record with the request's composite
key `(symbol, currency, secType)` wins and stops the search; a request
with no key-matching record resolves to null; and provided the requests
of the window carry pairwise distinct symbols — which duplicate-free
input guarantees, the shared context fixing currency and security type —
no record is matched to two different requests of the batch.  With
duplicate symbols in one window, the same record is matched to every
duplicate. -/
theorem claim_C3 (c : Contract) (qb w : List Contract) :
    (∀ q, findQualified c qb = some q →
        matches_key q c = true
        ∧ ∃ l₁ l₂, qb = l₁ ++ q :: l₂ ∧ ∀ q' ∈ l₁, matches_key q' c = false)
    ∧ (findQualified c qb = none ↔ ∀ q ∈ qb, matches_key q c = false)
    ∧ (∀ c₁ c₂, c₁ ∈ w → c₂ ∈ w → c₁.symbol ≠ c₂.symbol →
        ∀ q, findQualified c₁ qb = some q → findQualified c₂ qb ≠ some q) := by
  refine ⟨?_, ?_, ?_⟩
  · intro q hq
    rcases List.find?_eq_some.mp hq with ⟨hpq, l₁, l₂, hsplit, hprior⟩
    refine ⟨hpq, l₁, l₂, hsplit, ?_⟩
    intro q' hq'
    have := hprior q' hq'
    simpa using this
  · rw [findQualified, List.find?_eq_none]
    constructor
    · intro h q hq
      simpa using h q hq
    · intro h q hq
      simp [h q hq]
  · intro c₁ c₂ _ _ hne q h₁ h₂
    unfold findQualified at h₁ h₂
    have hm₁ := List.find?_some h₁
    have hm₂ := List.find?_some h₂
    simp only [matches_key, Bool.and_eq_true, decide_eq_true_eq] at hm₁ hm₂
    exact hne (hm₁.1.1 ▸ hm₂.1.1)

theorem claim_C3_witness :
    matches_key (⟨"A", "STK", "X", "USD"⟩ : Contract)
        (create_contract "A" "STK" "SMART" "USD") = true
    ∧ findQualified (create_contract "B" "STK" "SMART" "USD")
        [⟨"A", "STK", "X", "USD"⟩] = none :=
  ⟨((claim_C3 (create_contract "A" "STK" "SMART" "USD")
      [⟨"A", "STK", "X", "USD"⟩] []).1 _ (by decide)).1,
   (claim_C3 (create_contract "B" "STK" "SMART" "USD")
      [⟨"A", "STK", "X", "USD"⟩] []).2.1.mpr (by decide)⟩

/-- Claim C5 counterexample: for the name `"Foo Corporation"` the chain the
code builds is `["Foo Corporation", "Foo", "Foo"]` — the trailing
duplicate is not collapsed — and with a backend that accepts nothing the
loop queries all three entries, so `"Foo"` is queried twice. -/
theorem claim_C5_cex :
    search_terms_opt "Foo Corporation" ≠ some ["Foo Corporation", "Foo"]
    ∧ search_terms_opt "Foo Corporation" = some ["Foo Corporation", "Foo", "Foo"]
    ∧ run_chain_queried (fun _ => Except.ok none)
        ((search_terms_opt "Foo Corporation").getD [])
      = ["Foo Corporation", "Foo", "Foo"]
    ∧ (run_chain_queried (fun _ => Except.ok none)
        ((search_terms_opt "Foo Corporation").getD [])).count "Foo" = 2 := by
  refine ⟨by decide, by decide, by decide, by decide⟩

/-- Claim C5 (amended): the chain is built as the full name, then the
suffix-stripped name when non-empty and different, then the first
whitespace token when longer than two characters; terms shorter than two
characters are skipped at query time; the chain stops at the first
accepted term.  For `"Foo Corporation"` the built chain is
`["Foo Corporation", "Foo", "Foo"]`: the trailing duplicate is not
collapsed, and `"Foo"` is queried a second time when no earlier term was
accepted (harmless for a deterministic backend, but two queries, not
one). -/
theorem claim_C5 (backend : SearchBackend) :
    (search_terms_opt "Foo Corporation" = some ["Foo Corporation", "Foo", "Foo"])
    ∧ (∀ name terms, search_terms_opt name = some terms →
        ∃ first_word rest,
          pySplit name = first_word :: rest
          ∧ terms
            = [name]
              ++ (if pyStrip (re_sub_suffixes name) ≠ ""
                    ∧ pyStrip (re_sub_suffixes name) ≠ name
                  then [pyStrip (re_sub_suffixes name)] else [])
              ++ (if first_word.length > 2 then [first_word] else []))
    ∧ (∀ t ts, t.length < 2 → run_chain backend (t :: ts) = run_chain backend ts)
    ∧ (∀ t ts s, 2 ≤ t.length → try_term backend t = some s →
        run_chain backend (t :: ts) = some s) := by
  refine ⟨by decide, ?_, run_chain_skip backend, run_chain_stop backend⟩
  intro name terms hterms
  unfold search_terms_opt at hterms
  match hsplit : pySplit name with
  | [] =>
    rw [hsplit] at hterms
    simp at hterms
  | first_word :: rest =>
    rw [hsplit] at hterms
    refine ⟨first_word, rest, rfl, ?_⟩
    simp only [Option.some_inj] at hterms
    rw [← hterms]
    by_cases h₁ : pyStrip (re_sub_suffixes name) ≠ "" ∧ pyStrip (re_sub_suffixes name) ≠ name
    · rw [if_pos h₁, if_pos h₁]
      by_cases h₂ : first_word.length > 2
      · rw [if_pos h₂, if_pos h₂]
        try rfl
      · rw [if_neg h₂, if_neg h₂]
        try rfl
    · rw [if_neg h₁, if_neg h₁]
      by_cases h₂ : first_word.length > 2
      · rw [if_pos h₂, if_pos h₂]
        try rfl
      · rw [if_neg h₂, if_neg h₂]
        try rfl

theorem claim_C5_witness :
    search_terms_opt "Foo Corporation" = some ["Foo Corporation", "Foo", "Foo"]
    ∧ run_chain (fun _ => Except.ok none) ["a", "bc"]
        = run_chain (fun _ => Except.ok none) ["bc"] :=
  ⟨(claim_C5 (fun _ => Except.ok none)).1,
   (claim_C5 (fun _ => Except.ok none)).2.2.1 "a" ["bc"] (by decide)⟩

/-- Claim C6 counterexample: the search returns one result whose first
quote is flagged as an equity instrument, yet the code does not accept it
and the chain exhausts to null, because the quote's `symbol` is present
but falsy — the claim's acceptance condition is not sufficient. -/
theorem claim_C6_cex :
    ((fun _ => Except.ok (some [⟨some "", some "EQUITY"⟩]) : SearchBackend) "AB"
        = Except.ok (some [⟨some "", some "EQUITY"⟩]))
    ∧ try_term (fun _ => Except.ok (some [⟨some "", some "EQUITY"⟩])) "AB" = none
    ∧ run_chain (fun _ => Except.ok (some [⟨some "", some "EQUITY"⟩])) ["AB"]
        = none := by
  refine ⟨rfl, by decide, by decide⟩

/-- The acceptance test of `search_ticker`, characterised: a quote's
symbol is returned exactly when the symbol is present and non-empty and
the type flag is absent or upcases to `EQUITY`. -/
theorem accept_quote_eq_some (q : Quote) (s : String) :
    accept_quote q = some s ↔
      q.symbol = some s ∧ s ≠ ""
      ∧ (q.quoteType = none
          ∨ ∃ ty, q.quoteType = some ty ∧ pyUpper ty = "EQUITY") := by
  rcases q with ⟨qsym, qty⟩
  cases qsym with
  | none =>
    constructor
    · intro h
      cases h
    · rintro ⟨hss, _, _⟩
      cases hss
  | some s' =>
    show (if s' ≠ "" then
        match qty with
        | some t => if pyUpper t = "EQUITY" then some s' else none
        | none => some s'
      else none) = some s ↔ _
    by_cases hs' : s' ≠ ""
    · rw [if_pos hs']
      cases qty with
      | none =>
        constructor
        · intro h
          cases h
          exact ⟨rfl, hs', Or.inl rfl⟩
        · rintro ⟨hss, _, _⟩
          cases hss
          rfl
      | some ty =>
        show (if pyUpper ty = "EQUITY" then some s' else none) = some s ↔ _
        by_cases heq : pyUpper ty = "EQUITY"
        · rw [if_pos heq]
          constructor
          · intro h
            cases h
            exact ⟨rfl, hs', Or.inr ⟨ty, rfl, heq⟩⟩
          · rintro ⟨hss, _, _⟩
            cases hss
            rfl
        · rw [if_neg heq]
          constructor
          · intro h
            cases h
          · rintro ⟨hss, _, hty | ⟨ty', hty', heq'⟩⟩
            · cases hty
            · cases hty'
              exact absurd heq' heq
    · rw [if_neg hs']
      push_neg at hs'
      constructor
      · intro h
        cases h
      · rintro ⟨hss, hsne, _⟩
        cases hss
        exact absurd hs' hsne

/-- Claim C6 (amended): a term's lookup accepts the first returned quote's
symbol and stops the chain if and only if the search returns at least one
quote and the first quote carries a present, non-empty symbol and is
either flagged as an equity instrument (its type upcases to `EQUITY`) or
carries no type flag at all; otherwise the loop continues with the next
term, and an exhausted chain resolves to null. -/
theorem claim_C6 (backend : SearchBackend) :
    (∀ t s, try_term backend t = some s ↔
        ∃ q rest, backend t = Except.ok (some (q :: rest))
          ∧ q.symbol = some s ∧ s ≠ ""
          ∧ (q.quoteType = none
              ∨ ∃ ty, q.quoteType = some ty ∧ pyUpper ty = "EQUITY"))
    ∧ (∀ t ts, 2 ≤ t.length → try_term backend t = none →
        run_chain backend (t :: ts) = run_chain backend ts)
    ∧ (∀ t ts s, 2 ≤ t.length → try_term backend t = some s →
        run_chain backend (t :: ts) = some s)
    ∧ (∀ ts, (∀ t ∈ ts, t.length < 2 ∨ try_term backend t = none) →
        run_chain backend ts = none) := by
  refine ⟨?_, run_chain_miss backend, run_chain_stop backend,
    run_chain_exhausts backend⟩
  intro t s
  constructor
  · intro h
    unfold try_term at h
    cases hb : backend t with
    | error e => rw [hb] at h; cases h
    | ok v =>
      cases v with
      | none => rw [hb] at h; cases h
      | some quotes =>
        cases quotes with
        | nil => rw [hb] at h; cases h
        | cons q rest =>
          rw [hb] at h
          have h' : accept_quote q = some s := h
          rcases (accept_quote_eq_some q s).mp h' with ⟨h1, h2, h3⟩
          exact ⟨q, rest, rfl, h1, h2, h3⟩
  · rintro ⟨q, rest, hb, hsym, hs, hty⟩
    unfold try_term
    rw [hb]
    show accept_quote q = some s
    exact (accept_quote_eq_some q s).mpr ⟨hsym, hs, hty⟩

theorem claim_C6_witness :
    try_term (fun _ => Except.ok (some [⟨some "AAPL", some "equity"⟩])) "Apple"
      = some "AAPL" :=
  ((claim_C6 (fun _ => Except.ok (some [⟨some "AAPL", some "equity"⟩]))).1
      "Apple" "AAPL").mpr
    ⟨⟨some "AAPL", some "equity"⟩, [], rfl, rfl, by decide,
      Or.inr ⟨"equity", rfl, by decide⟩⟩

/-- Claim C7 counterexample: on the raw input `[" X", ".Y", "A.B", "A.C"]`
the returned list is `[" X", "", "A", "A"]` — it contains an empty entry,
duplicate entries, an untrimmed entry, and is not sorted, because the
class-suffix stripping runs after filtering, deduplication and sorting. -/
theorem claim_C7_cex :
    normalize_symbols [" X", ".Y", "A.B", "A.C"] = [" X", "", "A", "A"]
    ∧ ¬ (normalize_symbols [" X", ".Y", "A.B", "A.C"]).Nodup
    ∧ "" ∈ normalize_symbols [" X", ".Y", "A.B", "A.C"]
    ∧ ¬ List.Pairwise (fun a b => pyLe a b = true)
        (normalize_symbols [" X", ".Y", "A.B", "A.C"])
    ∧ (" X" ∈ normalize_symbols [" X", ".Y", "A.B", "A.C"]
        ∧ pyStrip " X" ≠ " X") := by
  refine ⟨by decide, by decide, by decide, by decide, by decide, by decide⟩

/-- Claim C7 (amended): the normalisation first drops empty and
whitespace-only entries, deduplicates and sorts — the intermediate list is
sorted, duplicate-free and free of empty or whitespace-only entries — and
only then strips each entry at its first `.`; entries are never trimmed,
and the final stripping step can reintroduce empty entries, duplicates and
disorder. -/
theorem claim_C7 (raws : List String) :
    (List.Pairwise (fun a b => pyLe a b = true)
        (pySorted (raws.filter (fun s => s ≠ "" ∧ pyStrip s ≠ "")).dedup))
    ∧ ((pySorted (raws.filter (fun s => s ≠ "" ∧ pyStrip s ≠ "")).dedup).Nodup)
    ∧ (∀ s ∈ pySorted (raws.filter (fun s => s ≠ "" ∧ pyStrip s ≠ "")).dedup,
        s ≠ "" ∧ pyStrip s ≠ "")
    ∧ (normalize_symbols raws
        = (pySorted (raws.filter (fun s => s ≠ "" ∧ pyStrip s ≠ "")).dedup).map
            pyDotHead) := by
  refine ⟨pairwise_pySorted _, ?_, ?_, rfl⟩
  · exact (pySorted_perm _).symm.nodup (List.nodup_dedup _)
  · intro s hs
    have hmem : s ∈ (raws.filter (fun s => s ≠ "" ∧ pyStrip s ≠ "")).dedup :=
      (pySorted_perm _).subset hs
    have hfil : s ∈ raws.filter (fun s => s ≠ "" ∧ pyStrip s ≠ "") :=
      List.mem_dedup.mp hmem
    have := List.of_mem_filter hfil
    simpa using this

theorem claim_C7_witness :
    normalize_symbols ["b", "a", "b", " "]
      = (pySorted (["b", "a", "b", " "].filter
          (fun s => s ≠ "" ∧ pyStrip s ≠ "")).dedup).map pyDotHead
    ∧ normalize_symbols ["b", "a", "b", " "] = ["a", "b"] :=
  ⟨(claim_C7 ["b", "a", "b", " "]).2.2.2, by decide⟩

/-- Claim C8: the per-task lookup returns null instead of propagating for
every input name — including the empty and whitespace-only names, whose
`split()[0]` raises inside the `try`, and under a search call that raises
on every term — the completion loop stores null for a task that raised,
and changing one task's outcome never changes any other task's entry. -/
theorem claim_C8 (backend : SearchBackend) :
    (∀ name, pySplit name = [] → search_ticker backend name = none)
    ∧ (search_ticker backend "" = none)
    ∧ (search_ticker backend "   " = none)
    ∧ (∀ name, search_ticker (fun _ => Except.error ()) name = none)
    ∧ (∀ (outcome : String → TaskOutcome) (completion : List String) (s : String),
        s ∈ completion → outcome s = TaskOutcome.err →
        dictLookup (find_tickers_model outcome completion) s = some none)
    ∧ (∀ (outcome outcome' : String → TaskOutcome) (n : String)
          (completion : List String),
        (∀ m, m ≠ n → outcome m = outcome' m) →
        ∀ m, m ≠ n →
          dictLookup (find_tickers_model outcome completion) m
            = dictLookup (find_tickers_model outcome' completion) m) := by
  have hsplit : ∀ name, pySplit name = [] → search_ticker backend name = none := by
    intro name h
    unfold search_ticker search_terms_opt
    rw [h]
  refine ⟨hsplit, hsplit "" (by decide), hsplit "   " (by decide), ?_, ?_, ?_⟩
  · intro name
    unfold search_ticker
    cases hterms : search_terms_opt name with
    | none => rfl
    | some terms =>
      exact run_chain_exhausts _ terms (fun t _ => Or.inr rfl)
  · intro outcome completion s hs herr
    unfold find_tickers_model
    rw [dictLookup_dictOf_map, if_pos hs, herr]
    rfl
  · intro outcome outcome' n completion hagree m hm
    unfold find_tickers_model
    rw [dictLookup_dictOf_map, dictLookup_dictOf_map]
    by_cases hmem : m ∈ completion
    · rw [if_pos hmem, if_pos hmem, hagree m hm]
    · rw [if_neg hmem, if_neg hmem]

theorem claim_C8_witness :
    search_ticker (fun _ => Except.ok none) "" = none
    ∧ search_ticker (fun _ => Except.error ()) "Foo Corporation" = none :=
  ⟨(claim_C8 (fun _ => Except.ok none)).2.1,
   (claim_C8 (fun _ => Except.ok none)).2.2.2.1 "Foo Corporation"⟩

/-- Claim C9 counterexample: on empty input the run returns early with
failure; no success rate is computed at all — in particular it is not
defined as 0 — though the mapping is indeed empty and no lookup task
runs. -/
theorem claim_C9_cex :
    (run_model (fun _ => TaskOutcome.err) [] []).successRate = none
    ∧ (run_model (fun _ => TaskOutcome.err) [] []).successRate ≠ some 0
    ∧ run_model (fun _ => TaskOutcome.err) [] []
        = { tickers := [], tasks_run := 0, successRate := none,
            success := false } := by
  refine ⟨by decide, by decide, by decide⟩

/-- Claim C9 (amended): on empty input the resolution stage returns early
with failure — the result mapping stays empty, zero lookup tasks run, and
no success rate is computed (so no division error can occur); on
non-empty duplicate-free input the success rate equals
`|resolved| / (|resolved| + |unresolved|)`. -/
theorem claim_C9 (outcome : String → TaskOutcome) (completion suppliers : List String)
    (hperm : completion.Perm suppliers) :
    (suppliers = [] →
      run_model outcome completion suppliers
        = { tickers := [], tasks_run := 0, successRate := none,
            success := false })
    ∧ (suppliers ≠ [] → suppliers.Nodup →
        (run_model outcome completion suppliers).success = true
        ∧ (run_model outcome completion suppliers).successRate
            = some
                ((((find_tickers_model outcome completion).filter
                    (fun p => p.2.isSome)).length : ℚ)
                  / ((((find_tickers_model outcome completion).filter
                        (fun p => p.2.isSome)).length
                      + ((find_tickers_model outcome completion).filter
                          (fun p => !p.2.isSome)).length : Nat) : ℚ))) := by
  constructor
  · intro hempty
    subst hempty
    rfl
  · intro hne hnd
    have hnotempty : ¬suppliers.isEmpty := by
      cases suppliers with
      | nil => exact absurd rfl hne
      | cons a l => simp
    have hlen : (find_tickers_model outcome completion).length
        = suppliers.length := by
      have hcn : completion.Nodup := hperm.nodup_iff.mpr hnd
      have hk := find_tickers_keys outcome completion hcn
      have h₁ : (find_tickers_model outcome completion).length
          = (List.map Prod.fst (find_tickers_model outcome completion)).length :=
        (List.length_map _ _).symm
      rw [h₁, hk, hperm.length_eq]
    have hsum : (((find_tickers_model outcome completion).filter
          (fun p => p.2.isSome)).length
        + ((find_tickers_model outcome completion).filter
            (fun p => !p.2.isSome)).length)
        = suppliers.length := by
      rw [← hlen]
      exact (@List.length_eq_length_filter_add _
        (find_tickers_model outcome completion) (fun p => p.2.isSome)).symm
    unfold run_model
    rw [if_neg hnotempty]
    refine ⟨rfl, ?_⟩
    rw [← hsum]

theorem claim_C9_witness :
    (run_model (fun _ => TaskOutcome.ok (some "T")) ["a", "b"] ["a", "b"]).success
        = true
    ∧ (run_model (fun _ => TaskOutcome.ok (some "T")) ["a", "b"]
        ["a", "b"]).successRate
      = some
          ((((find_tickers_model (fun _ => TaskOutcome.ok (some "T"))
              ["a", "b"]).filter (fun p => p.2.isSome)).length : ℚ)
            / ((((find_tickers_model (fun _ => TaskOutcome.ok (some "T"))
                  ["a", "b"]).filter (fun p => p.2.isSome)).length
                + ((find_tickers_model (fun _ => TaskOutcome.ok (some "T"))
                    ["a", "b"]).filter (fun p => !p.2.isSome)).length : Nat) : ℚ)) :=
  (claim_C9 (fun _ => TaskOutcome.ok (some "T")) ["a", "b"] ["a", "b"]
      (List.Perm.refl _)).2 (by decide) (by decide)

end IbkrSpec

